import Mathlib

/-!
Verification of the packet-analysis core of the PCAP File Analyzer
(`server.js`, `/api/upload` handler).  The JavaScript source is embedded
shallowly: buffers become `List Nat`, out-of-range indexing becomes
`Option`, the JS object used as a counter map becomes an insertion-ordered
association list, and the JS `Set` becomes an insertion-ordered
duplicate-free list.  Timestamps are outside the model.
-/

/-- Decimal digit character, `48 + d` is the ASCII code (`'0'` is 48). -/
def decDigit (d : Nat) : Char := Char.ofNat (48 + d)

/-- Fuelled decimal rendering of a natural number (most significant digit
first), structural in the fuel so that the kernel can evaluate it. -/
def decCharsAux : Nat → Nat → List Char
  | 0, _ => []
  | fuel + 1, n =>
    if n < 10 then [decDigit n]
    else decCharsAux fuel (n / 10) ++ [decDigit (n % 10)]

/-- Decimal digits of `n`, as the JS template literal renders a number. -/
def decChars (n : Nat) : List Char := decCharsAux (n + 1) n

/-- Decimal string rendering of a natural number, as `${n}` in JS. -/
def decStr (n : Nat) : String := String.mk (decChars n)

/-- Rendering of `packet.data[i]` inside a template literal: a number in
decimal, or the text `undefined` when the index is out of range. -/
def renderByte : Option Nat → String
  | some n => decStr n
  | none => "undefined"

/-- `Buffer.readUInt16BE(off)`: big-endian 16-bit read; `none` models the
`RangeError` thrown when fewer than two bytes remain. -/
def readUInt16BE (data : List Nat) (off : Nat) : Option Nat :=
  match data.get? off, data.get? (off + 1) with
  | some hi, some lo => some (hi * 256 + lo)
  | _, _ => none

/-- A raw captured frame: the byte buffer `packet.data` plus the optional
`packet.header?.orig_len`. -/
structure RawFrame where
  data : List Nat
  origLen : Option Nat
deriving DecidableEq, Repr

/-- One entry of `packetDetails` as pushed by the packet handler. -/
structure DecodedPacket where
  srcIP : String
  dstIP : String
  protocol : String
  packetSize : Nat
deriving DecidableEq, Repr

/-- Dotted rendering of four byte reads, as in
`` `${data[26]}.${data[27]}.${data[28]}.${data[29]}` ``. -/
def ipStr (a b c d : Option Nat) : String :=
  renderByte a ++ "." ++ renderByte b ++ "." ++ renderByte c ++ "." ++ renderByte d

/-- The protocol-name mapping of `server.js` lines 162–167; the argument is
`packet.data[23]`, which may be out of range (`none` ≈ `undefined`). -/
def protoName (protocol : Option Nat) : String :=
  if protocol = some 6 then "TCP"
  else if protocol = some 17 then "UDP"
  else if protocol = some 1 then "ICMP"
  else "Unknown (" ++ renderByte protocol ++ ")"

/-- `packet.data.length || packet.header?.orig_len || 0` with JS truthiness. -/
def packetLength (f : RawFrame) : Nat :=
  if f.data.length ≠ 0 then f.data.length
  else match f.origLen with
    | some n => if n ≠ 0 then n else 0
    | none => 0

/-- The pure per-frame decode of `server.js` lines 155–176: `none` covers
both the caught `RangeError` on a frame shorter than 14 bytes and the
silent skip of a non-IPv4 ethertype; `some` is the pushed detail record. -/
def decodeFrame (f : RawFrame) : Option DecodedPacket :=
  match readUInt16BE f.data 12 with
  | none => none
  | some ethertype =>
    if ethertype = 0x0800 then
      some { srcIP := ipStr (f.data.get? 26) (f.data.get? 27) (f.data.get? 28) (f.data.get? 29)
             dstIP := ipStr (f.data.get? 30) (f.data.get? 31) (f.data.get? 32) (f.data.get? 33)
             protocol := protoName (f.data.get? 23)
             packetSize := packetLength f }
    else none

/-- `` `${srcIP}->${dstIP}` `` — the directional connection identifier. -/
def connectionKey (p : DecodedPacket) : String := p.srcIP ++ "->" ++ p.dstIP

/-- `connectionCounts[key] = (connectionCounts[key] || 0) + 1` on a JS
object: first occurrence updated in place, otherwise appended last. -/
def bump (cc : List (String × Nat)) (k : String) : List (String × Nat) :=
  match cc with
  | [] => [(k, 1)]
  | (k', c) :: rest => if k' = k then (k', c + 1) :: rest else (k', c) :: bump rest k

/-- `connectionCounts[key] || 0`. -/
def lookupCount (cc : List (String × Nat)) (k : String) : Nat :=
  match cc with
  | [] => 0
  | (k', c) :: rest => if k' = k then c else lookupCount rest k

/-- Mutable state of one `/api/upload` run (lines 143–146). -/
structure AnalysisState where
  totalPackets : Nat
  packetDetails : List DecodedPacket
  connectionCounts : List (String × Nat)
deriving DecidableEq, Repr

/-- The `parser.on("packet")` handler, lines 151–186: the frame is always
counted; an IPv4-decodable frame additionally appends its detail record
and bumps its connection counter; any other frame does nothing more. -/
def processPacket (s : AnalysisState) (f : RawFrame) : AnalysisState :=
  match decodeFrame f with
  | none => { s with totalPackets := s.totalPackets + 1 }
  | some p =>
    { totalPackets := s.totalPackets + 1
      packetDetails := s.packetDetails ++ [p]
      connectionCounts := bump s.connectionCounts (connectionKey p) }

/-- State after the packet events of one run, starting from the fresh
per-request declarations. -/
def runPackets (frames : List RawFrame) : AnalysisState :=
  List.foldl processPacket ⟨0, [], []⟩ frames

/-- One element of the `threats` array. -/
structure Threat where
  type : String
  description : String
deriving DecidableEq, Repr

/-- The "Potential DDoS" finding pushed at lines 192–195. -/
def ddosFinding (connection : String) (count : Nat) : Threat :=
  { type := "Potential DDoS"
    description := "High traffic detected on connection " ++ connection ++
      " with " ++ decStr count ++ " packets." }

/-- The "Potential Port Scan" finding pushed at lines 209–212. -/
def scanFinding (srcIP : String) (size : Nat) : Threat :=
  { type := "Potential Port Scan"
    description := "Source IP " ++ srcIP ++ " connected to " ++ decStr size ++
      " unique destinations." }

/-- A thresholded emission loop over keyed counts, in entry order. -/
def emitFindings (thr : Nat) (mk : String → Nat → Threat) :
    List (String × Nat) → List Threat
  | [] => []
  | (k, n) :: rest => (if thr < n then [mk k n] else []) ++ emitFindings thr mk rest

/-- The DDoS loop over `Object.entries(connectionCounts)`, lines 190–197. -/
def ddosFindings (cc : List (String × Nat)) : List Threat :=
  emitFindings 100 ddosFinding cc

/-- `portScanSources[key].add(dstIP)` preceded by the `|| new Set()`
default: the JS object keeps keys in insertion order and the `Set` keeps
distinct members in insertion order. -/
def addDest (m : List (String × List String)) (src dst : String) :
    List (String × List String) :=
  match m with
  | [] => [(src, [dst])]
  | (k, ds) :: rest =>
    if k = src then (k, if dst ∈ ds then ds else ds ++ [dst]) :: rest
    else (k, ds) :: addDest rest src dst

/-- The `packetDetails.forEach` loop of lines 200–205. -/
def portScanSources (pds : List DecodedPacket) : List (String × List String) :=
  List.foldl (fun m p => addDest m p.srcIP p.dstIP) [] pds

/-- The port-scan loop over `Object.entries(portScanSources)`,
lines 207–214; `dstIPs.size` is the length of the duplicate-free list. -/
def portScanFindings (m : List (String × List String)) : List Threat :=
  emitFindings 20 scanFinding (m.map (fun e => (e.1, e.2.length)))

/-- The response object of lines 216–221, minus the wall-clock timestamp. -/
structure AnalysisResult where
  totalPackets : Nat
  packetDetails : List DecodedPacket
  threats : List Threat
deriving DecidableEq, Repr

/-- End-of-stream assembly (`parser.on("end")`): threat detection over the
accumulated state, then the result object. -/
def analyze (frames : List RawFrame) : AnalysisResult :=
  let st := runPackets frames
  { totalPackets := st.totalPackets
    packetDetails := st.packetDetails
    threats := ddosFindings st.connectionCounts ++
      portScanFindings (portScanSources st.packetDetails) }

/-- The orchestration of the `end`/`error` events: a stream that fails
surfaces only the 500-error body, never a result object. -/
def analyzeRun (frames : List RawFrame) (parseFailed : Bool) :
    Except String AnalysisResult :=
  if parseFailed then Except.error "Failed to parse PCAP file."
  else Except.ok (analyze frames)

/-- The server handling a list of upload requests: the per-request state of
lines 143–146 is declared inside the handler, so each call runs `analyze`
from scratch. -/
def serveAll (requests : List (List RawFrame)) : List AnalysisResult :=
  requests.map analyze

/-! ### Decimal rendering: digits, space-freeness, injectivity -/

/-- Strings built from rendered bytes never contain a space. -/
def SpaceFree (s : String) : Prop := ' ' ∉ s.data

instance (s : String) : Decidable (SpaceFree s) :=
  inferInstanceAs (Decidable (' ' ∉ s.data))

lemma decDigit_ne_space {d : Nat} (h : d < 10) : decDigit d ≠ ' ' := by
  interval_cases d <;> decide

lemma toNat_decDigit {d : Nat} (h : d < 10) : (decDigit d).toNat = 48 + d := by
  interval_cases d <;> decide

lemma space_not_mem_decCharsAux (fuel n : Nat) : ' ' ∉ decCharsAux fuel n := by
  induction fuel generalizing n with
  | zero => simp [decCharsAux]
  | succ fuel ih =>
    by_cases h : n < 10
    · simp only [decCharsAux, if_pos h, List.mem_singleton]
      exact fun heq => decDigit_ne_space h heq.symm
    · simp only [decCharsAux, if_neg h, List.mem_append, List.mem_singleton]
      push_neg
      exact ⟨ih _, fun heq => decDigit_ne_space (Nat.mod_lt n (by omega)) heq.symm⟩

lemma spaceFree_decStr (n : Nat) : SpaceFree (decStr n) :=
  space_not_mem_decCharsAux _ _

lemma spaceFree_append {s t : String} (hs : SpaceFree s) (ht : SpaceFree t) :
    SpaceFree (s ++ t) := by
  simp only [SpaceFree, String.data_append, List.mem_append] at *
  push_neg
  exact ⟨hs, ht⟩

/-- Reads a digit string back; inverse of `decCharsAux` used for injectivity. -/
def unDecAux (acc : Nat) : List Char → Nat
  | [] => acc
  | c :: cs => unDecAux (acc * 10 + (c.toNat - 48)) cs

lemma unDecAux_append (acc : Nat) (xs ys : List Char) :
    unDecAux acc (xs ++ ys) = unDecAux (unDecAux acc xs) ys := by
  induction xs generalizing acc with
  | nil => rfl
  | cons c cs ih =>
    rw [List.cons_append]
    show unDecAux (acc * 10 + (c.toNat - 48)) (cs ++ ys) = _
    rw [ih]
    rfl

lemma unDecAux_decCharsAux (fuel n : Nat) (h : n < fuel) :
    unDecAux 0 (decCharsAux fuel n) = n := by
  induction fuel generalizing n with
  | zero => omega
  | succ fuel ih =>
    have hunfold : decCharsAux (fuel + 1) n =
        if n < 10 then [decDigit n]
        else decCharsAux fuel (n / 10) ++ [decDigit (n % 10)] := rfl
    by_cases h10 : n < 10
    · rw [hunfold, if_pos h10]
      have hstep : unDecAux 0 [decDigit n] =
          0 * 10 + ((decDigit n).toNat - 48) := rfl
      rw [hstep, toNat_decDigit h10]
      omega
    · have hdiv : n / 10 < fuel := by omega
      rw [hunfold, if_neg h10, unDecAux_append, ih _ hdiv]
      have hstep : unDecAux (n / 10) [decDigit (n % 10)] =
          (n / 10) * 10 + ((decDigit (n % 10)).toNat - 48) := rfl
      rw [hstep, toNat_decDigit (Nat.mod_lt n (by omega))]
      omega

lemma decChars_inj {m n : Nat} (h : decChars m = decChars n) : m = n := by
  have h1 := unDecAux_decCharsAux (m + 1) m (by omega)
  have h2 := unDecAux_decCharsAux (n + 1) n (by omega)
  rw [← h1, ← h2]
  unfold decChars at h
  rw [h]

/-! ### Splitting at the first space; injectivity of the descriptions -/

/-- Splits a character list at its first space, if any. -/
def splitSp : List Char → Option (List Char × List Char)
  | [] => none
  | c :: cs =>
    if c = ' ' then some ([], cs)
    else (splitSp cs).map (fun p => (c :: p.1, p.2))

lemma splitSp_eq (x r : List Char) (hx : ' ' ∉ x) :
    splitSp (x ++ ' ' :: r) = some (x, r) := by
  induction x with
  | nil => simp [splitSp]
  | cons c cs ih =>
    simp only [List.mem_cons, not_or] at hx
    have hc : c ≠ ' ' := fun heq => hx.1 heq.symm
    simp [splitSp, hc, ih hx.2]

lemma sepInj {x x' r r' : List Char} (hx : ' ' ∉ x) (hx' : ' ' ∉ x')
    (h : x ++ ' ' :: r = x' ++ ' ' :: r') : x = x' ∧ r = r' := by
  have hsplit := congrArg splitSp h
  rw [splitSp_eq x r hx, splitSp_eq x' r' hx'] at hsplit
  simpa using hsplit

/-- Two space-free fields separated and terminated by space-led literals
determine each other inside a fixed sentence pattern. -/
lemma twoFieldInj (A B C : List Char) {x x' y y' : List Char}
    (hx : ' ' ∉ x) (hx' : ' ' ∉ x') (hy : ' ' ∉ y) (hy' : ' ' ∉ y')
    (h : A ++ (x ++ ' ' :: (B ++ (y ++ ' ' :: C))) =
         A ++ (x' ++ ' ' :: (B ++ (y' ++ ' ' :: C)))) : x = x' ∧ y = y' := by
  have h1 := List.append_cancel_left h
  obtain ⟨hxx, h2⟩ := sepInj hx hx' h1
  have h3 := List.append_cancel_left h2
  obtain ⟨hyy, _⟩ := sepInj hy hy' h3
  exact ⟨hxx, hyy⟩

lemma ddosFinding_inj {c c' : String} {n n' : Nat}
    (hc : SpaceFree c) (hc' : SpaceFree c')
    (h : ddosFinding c n = ddosFinding c' n') : c = c' ∧ n = n' := by
  have hd : (ddosFinding c n).description = (ddosFinding c' n').description := by
    rw [h]
  have hdata := congrArg String.data hd
  have hw : (" with " : String).data = ' ' :: ("with " : String).data := rfl
  have hp : (" packets." : String).data = ' ' :: ("packets." : String).data := rfl
  simp only [ddosFinding, String.data_append, hw, hp, List.cons_append,
    List.append_assoc] at hdata
  have hres := twoFieldInj ("High traffic detected on connection " : String).data
    ("with " : String).data ("packets." : String).data
    hc hc' (space_not_mem_decCharsAux _ _) (space_not_mem_decCharsAux _ _) hdata
  exact ⟨String.ext hres.1, decChars_inj hres.2⟩

lemma scanFinding_inj {c c' : String} {n n' : Nat}
    (hc : SpaceFree c) (hc' : SpaceFree c')
    (h : scanFinding c n = scanFinding c' n') : c = c' ∧ n = n' := by
  have hd : (scanFinding c n).description = (scanFinding c' n').description := by
    rw [h]
  have hdata := congrArg String.data hd
  have hw : (" connected to " : String).data =
      ' ' :: ("connected to " : String).data := rfl
  have hp : (" unique destinations." : String).data =
      ' ' :: ("unique destinations." : String).data := rfl
  simp only [scanFinding, String.data_append, hw, hp, List.cons_append,
    List.append_assoc] at hdata
  have hres := twoFieldInj ("Source IP " : String).data
    ("connected to " : String).data ("unique destinations." : String).data
    hc hc' (space_not_mem_decCharsAux _ _) (space_not_mem_decCharsAux _ _) hdata
  exact ⟨String.ext hres.1, decChars_inj hres.2⟩

/-! ### Counting findings -/

/-- Number of occurrences of one finding in a threat list. -/
def countOcc (f : Threat) : List Threat → Nat
  | [] => 0
  | t :: ts => (if t = f then 1 else 0) + countOcc f ts

lemma countOcc_append (f : Threat) (l₁ l₂ : List Threat) :
    countOcc f (l₁ ++ l₂) = countOcc f l₁ + countOcc f l₂ := by
  induction l₁ with
  | nil => simp [countOcc]
  | cons t ts ih => simp [countOcc, ih, Nat.add_assoc]

lemma countOcc_emit_zero (thr : Nat) (mk : String → Nat → Threat) (f : Threat)
    (l : List (String × Nat)) (hne : ∀ e ∈ l, mk e.1 e.2 ≠ f) :
    countOcc f (emitFindings thr mk l) = 0 := by
  induction l with
  | nil => rfl
  | cons e rest ih =>
    obtain ⟨k, n⟩ := e
    have hunfold : emitFindings thr mk ((k, n) :: rest) =
        (if thr < n then [mk k n] else []) ++ emitFindings thr mk rest := rfl
    rw [hunfold, countOcc_append, ih (fun e he => hne e (List.mem_cons_of_mem _ he))]
    by_cases hthr : thr < n
    · rw [if_pos hthr]
      have hne0 := hne (k, n) (List.mem_cons_self _ _)
      simp [countOcc, hne0]
    · rw [if_neg hthr]
      simp [countOcc]

lemma countOcc_emit (thr : Nat) (mk : String → Nat → Threat) (conn : String)
    (cnt : Nat) (l : List (String × Nat)) (hmem : (conn, cnt) ∈ l)
    (hnd : (l.map Prod.fst).Nodup)
    (huniq : ∀ e ∈ l, mk e.1 e.2 = mk conn cnt → e.1 = conn ∧ e.2 = cnt) :
    countOcc (mk conn cnt) (emitFindings thr mk l) = if thr < cnt then 1 else 0 := by
  induction l with
  | nil => cases hmem
  | cons e rest ih =>
    obtain ⟨k, n⟩ := e
    have hnd' : k ∉ rest.map Prod.fst ∧ (rest.map Prod.fst).Nodup := by
      simpa using hnd
    have hunfold : emitFindings thr mk ((k, n) :: rest) =
        (if thr < n then [mk k n] else []) ++ emitFindings thr mk rest := rfl
    rw [hunfold, countOcc_append]
    rcases List.mem_cons.mp hmem with hhead | htail
    · injection hhead with h1 h2
      subst h1
      subst h2
      have hzero : countOcc (mk conn cnt) (emitFindings thr mk rest) = 0 := by
        refine countOcc_emit_zero thr mk _ rest (fun e' he' heq => ?_)
        have he1 := (huniq e' (List.mem_cons_of_mem _ he') heq).1
        apply hnd'.1
        rw [← he1]
        exact List.mem_map_of_mem Prod.fst he'
      rw [hzero]
      by_cases hthr : thr < cnt
      · rw [if_pos hthr, if_pos hthr]
        simp [countOcc]
      · rw [if_neg hthr, if_neg hthr]
        simp [countOcc]
    · have hconn_in : conn ∈ rest.map Prod.fst :=
        List.mem_map_of_mem Prod.fst htail
      have hhead_zero :
          countOcc (mk conn cnt) (if thr < n then [mk k n] else []) = 0 := by
        by_cases hthr : thr < n
        · rw [if_pos hthr]
          have hkne : mk k n ≠ mk conn cnt := by
            intro heq
            have h1 : (k, n).1 = conn := (huniq (k, n) (List.mem_cons_self _ _) heq).1
            apply hnd'.1
            rw [show k = conn from h1]
            exact hconn_in
          simp [countOcc, hkne]
        · rw [if_neg hthr]
          simp [countOcc]
      rw [hhead_zero, ih htail hnd'.2
        (fun e' he' heq => huniq e' (List.mem_cons_of_mem _ he') heq)]
      omega

/-! ### The connection-count map under `bump` -/

lemma bump_keys (cc : List (String × Nat)) (k : String) :
    (bump cc k).map Prod.fst =
      if k ∈ cc.map Prod.fst then cc.map Prod.fst else cc.map Prod.fst ++ [k] := by
  induction cc with
  | nil => simp [bump]
  | cons e rest ih =>
    obtain ⟨k', c⟩ := e
    by_cases hk : k' = k
    · subst hk
      simp [bump]
    · have hne : ¬ k = k' := fun h => hk h.symm
      by_cases hmem : k ∈ rest.map Prod.fst
      · simp [bump, hk, ih, hmem, hne]
      · simp [bump, hk, ih, hmem, hne]

lemma bump_nodup {cc : List (String × Nat)} (k : String)
    (h : (cc.map Prod.fst).Nodup) : ((bump cc k).map Prod.fst).Nodup := by
  rw [bump_keys]
  by_cases hk : k ∈ cc.map Prod.fst
  · rw [if_pos hk]; exact h
  · rw [if_neg hk]
    simp only [List.nodup_append, List.nodup_cons, List.not_mem_nil,
      not_false_iff, List.nodup_nil, and_true, true_and]
    constructor
    · exact h
    · intro a ha
      simp only [List.mem_singleton]
      exact fun heq => hk (heq ▸ ha)

lemma bump_entries (cc : List (String × Nat)) (k : String) (e : String × Nat) :
    e ∈ bump cc k →
      e ∈ cc ∨ (e.1 = k ∧ e.2 = 1) ∨ (∃ c, (e.1, c) ∈ cc ∧ e.2 = c + 1) := by
  induction cc with
  | nil =>
    intro he
    simp only [bump, List.mem_singleton] at he
    subst he
    exact Or.inr (Or.inl ⟨rfl, rfl⟩)
  | cons e0 rest ih =>
    intro he
    obtain ⟨k', c⟩ := e0
    by_cases hk : k' = k
    · subst hk
      simp only [bump, if_pos rfl] at he
      rcases List.mem_cons.mp he with h1 | h2
      · subst h1
        exact Or.inr (Or.inr ⟨c, List.mem_cons_self _ _, rfl⟩)
      · exact Or.inl (List.mem_cons_of_mem _ h2)
    · simp only [bump, if_neg hk] at he
      rcases List.mem_cons.mp he with h1 | h2
      · subst h1
        exact Or.inl (List.mem_cons_self _ _)
      · rcases ih h2 with h | h | ⟨c', hc', hc2⟩
        · exact Or.inl (List.mem_cons_of_mem _ h)
        · exact Or.inr (Or.inl h)
        · exact Or.inr (Or.inr ⟨c', List.mem_cons_of_mem _ hc', hc2⟩)

/-- Total number of aggregation updates recorded in the map. -/
def sumCounts : List (String × Nat) → Nat
  | [] => 0
  | e :: rest => e.2 + sumCounts rest

lemma sumCounts_bump (cc : List (String × Nat)) (k : String) :
    sumCounts (bump cc k) = sumCounts cc + 1 := by
  induction cc with
  | nil => rfl
  | cons e rest ih =>
    obtain ⟨k', c⟩ := e
    by_cases hk : k' = k
    · subst hk
      simp [bump, sumCounts]
      omega
    · simp [bump, hk, sumCounts, ih]
      omega

lemma lookupCount_bump_le (cc : List (String × Nat)) (k k' : String) :
    lookupCount cc k' ≤ lookupCount (bump cc k) k' := by
  induction cc with
  | nil => exact Nat.zero_le _
  | cons e rest ih =>
    obtain ⟨k0, c⟩ := e
    by_cases h0 : k0 = k
    · subst h0
      by_cases h1 : k0 = k'
      · subst h1
        simp [bump, lookupCount]
      · simp [bump, lookupCount, h1]
    · by_cases h1 : k0 = k'
      · subst h1
        simp [bump, lookupCount, h0]
      · simp [bump, h0, lookupCount, h1, ih]

lemma bump_mem_keys (cc : List (String × Nat)) (k k' : String)
    (h : k' ∈ cc.map Prod.fst) : k' ∈ (bump cc k).map Prod.fst := by
  rw [bump_keys]
  by_cases hk : k ∈ cc.map Prod.fst
  · rw [if_pos hk]; exact h
  · rw [if_neg hk]; exact List.mem_append_left _ h

/-! ### Decomposing a run into its three components -/

/-- The connection map obtained from a list of decoded packets. -/
def buildCC (pds : List DecodedPacket) : List (String × Nat) :=
  List.foldl (fun cc p => bump cc (connectionKey p)) [] pds

lemma foldl_total (frames : List RawFrame) (s : AnalysisState) :
    (List.foldl processPacket s frames).totalPackets =
      s.totalPackets + frames.length := by
  induction frames generalizing s with
  | nil => simp
  | cons f fs ih =>
    show (List.foldl processPacket (processPacket s f) fs).totalPackets = _
    rw [ih]
    cases hdf : decodeFrame f <;> simp [processPacket, hdf] <;> omega

lemma foldl_details (frames : List RawFrame) (s : AnalysisState) :
    (List.foldl processPacket s frames).packetDetails =
      s.packetDetails ++ frames.filterMap decodeFrame := by
  induction frames generalizing s with
  | nil => simp
  | cons f fs ih =>
    show (List.foldl processPacket (processPacket s f) fs).packetDetails = _
    rw [ih]
    cases hdf : decodeFrame f
    · simp [processPacket, hdf, List.filterMap_cons_none]
    · simp [processPacket, hdf, List.filterMap_cons_some]

lemma foldl_cc (frames : List RawFrame) (s : AnalysisState) :
    (List.foldl processPacket s frames).connectionCounts =
      List.foldl (fun cc p => bump cc (connectionKey p))
        s.connectionCounts (frames.filterMap decodeFrame) := by
  induction frames generalizing s with
  | nil => simp
  | cons f fs ih =>
    show (List.foldl processPacket (processPacket s f) fs).connectionCounts = _
    rw [ih]
    cases hdf : decodeFrame f
    · simp [processPacket, hdf, List.filterMap_cons_none]
    · simp [processPacket, hdf, List.filterMap_cons_some]

lemma runPackets_total (frames : List RawFrame) :
    (runPackets frames).totalPackets = frames.length := by
  rw [runPackets, foldl_total]
  simp

lemma runPackets_details (frames : List RawFrame) :
    (runPackets frames).packetDetails = frames.filterMap decodeFrame := by
  rw [runPackets, foldl_details]
  rfl

lemma runPackets_cc (frames : List RawFrame) :
    (runPackets frames).connectionCounts = buildCC (frames.filterMap decodeFrame) := by
  rw [runPackets, foldl_cc]
  rfl

/-! ### Space-freeness of the rendered identifiers -/

lemma spaceFree_renderByte (b : Option Nat) : SpaceFree (renderByte b) := by
  cases b with
  | some n => exact spaceFree_decStr n
  | none => decide

lemma spaceFree_ipStr (a b c d : Option Nat) : SpaceFree (ipStr a b c d) := by
  unfold ipStr
  have hdot : SpaceFree "." := by decide
  exact spaceFree_append (spaceFree_append (spaceFree_append
    (spaceFree_append (spaceFree_append (spaceFree_append
      (spaceFree_renderByte a) hdot) (spaceFree_renderByte b)) hdot)
      (spaceFree_renderByte c)) hdot) (spaceFree_renderByte d)

lemma spaceFree_connectionKey {p : DecodedPacket} (h1 : SpaceFree p.srcIP)
    (h2 : SpaceFree p.dstIP) : SpaceFree (connectionKey p) := by
  unfold connectionKey
  have harr : SpaceFree "->" := by decide
  exact spaceFree_append (spaceFree_append h1 harr) h2

/-- Full characterisation of a successful decode. -/
lemma decodeFrame_some {f : RawFrame} {p : DecodedPacket}
    (h : decodeFrame f = some p) :
    p.srcIP = ipStr (f.data.get? 26) (f.data.get? 27) (f.data.get? 28) (f.data.get? 29) ∧
    p.dstIP = ipStr (f.data.get? 30) (f.data.get? 31) (f.data.get? 32) (f.data.get? 33) ∧
    p.protocol = protoName (f.data.get? 23) ∧
    p.packetSize = packetLength f := by
  unfold decodeFrame at h
  split at h
  · cases h
  · split at h
    · injection h with h
      subst h
      exact ⟨rfl, rfl, rfl, rfl⟩
    · cases h

lemma decodeFrame_spaceFree {f : RawFrame} {p : DecodedPacket}
    (h : decodeFrame f = some p) : SpaceFree p.srcIP ∧ SpaceFree p.dstIP := by
  obtain ⟨h1, h2, _, _⟩ := decodeFrame_some h
  exact ⟨h1 ▸ spaceFree_ipStr _ _ _ _, h2 ▸ spaceFree_ipStr _ _ _ _⟩

/-! ### Invariants of the connection-count map -/

lemma foldl_bump_nodup (pds : List DecodedPacket) (cc : List (String × Nat))
    (h : (cc.map Prod.fst).Nodup) :
    (((List.foldl (fun cc p => bump cc (connectionKey p)) cc pds)).map Prod.fst).Nodup := by
  induction pds generalizing cc with
  | nil => exact h
  | cons p rest ih => exact ih _ (bump_nodup _ h)

lemma foldl_bump_entries (full pds : List DecodedPacket) (cc : List (String × Nat))
    (hsub : ∀ p ∈ pds, p ∈ full)
    (hcc : ∀ e ∈ cc, (∃ p, p ∈ full ∧ e.1 = connectionKey p) ∧ 1 ≤ e.2) :
    ∀ e ∈ List.foldl (fun cc p => bump cc (connectionKey p)) cc pds,
      (∃ p, p ∈ full ∧ e.1 = connectionKey p) ∧ 1 ≤ e.2 := by
  induction pds generalizing cc with
  | nil => exact hcc
  | cons p rest ih =>
    refine ih _ (fun q hq => hsub q (List.mem_cons_of_mem _ hq)) ?_
    intro e he
    rcases bump_entries cc (connectionKey p) e he with hold | ⟨h1, h2⟩ | ⟨c, hc, h2⟩
    · exact hcc e hold
    · exact ⟨⟨p, hsub p (List.mem_cons_self _ _), h1⟩, by omega⟩
    · exact ⟨(hcc (e.1, c) hc).1, by omega⟩

lemma foldl_bump_sum (pds : List DecodedPacket) (cc : List (String × Nat)) :
    sumCounts (List.foldl (fun cc p => bump cc (connectionKey p)) cc pds) =
      sumCounts cc + pds.length := by
  induction pds generalizing cc with
  | nil => simp
  | cons p rest ih =>
    show sumCounts (List.foldl _ (bump cc (connectionKey p)) rest) = _
    rw [ih, sumCounts_bump]
    simp
    omega

lemma buildCC_nodup (pds : List DecodedPacket) :
    ((buildCC pds).map Prod.fst).Nodup :=
  foldl_bump_nodup pds [] (by simp)

lemma buildCC_entries (pds : List DecodedPacket) :
    ∀ e ∈ buildCC pds, (∃ p, p ∈ pds ∧ e.1 = connectionKey p) ∧ 1 ≤ e.2 :=
  foldl_bump_entries pds pds [] (fun _ hp => hp) (by simp)

lemma buildCC_sum (pds : List DecodedPacket) :
    sumCounts (buildCC pds) = pds.length := by
  have := foldl_bump_sum pds []
  simpa [buildCC, sumCounts] using this

/-- Keys of the run's connection map are space-free strings. -/
lemma runPackets_cc_spaceFree (frames : List RawFrame) :
    ∀ e ∈ (runPackets frames).connectionCounts, SpaceFree e.1 := by
  intro e he
  rw [runPackets_cc] at he
  obtain ⟨⟨p, hp, hkey⟩, _⟩ := buildCC_entries _ e he
  obtain ⟨f, _, hdf⟩ := List.mem_filterMap.mp hp
  obtain ⟨h1, h2⟩ := decodeFrame_spaceFree hdf
  rw [hkey]
  exact spaceFree_connectionKey h1 h2

lemma mem_iff_countOcc_pos (f : Threat) (l : List Threat) :
    f ∈ l ↔ 0 < countOcc f l := by
  induction l with
  | nil => simp [countOcc]
  | cons t ts ih =>
    by_cases ht : t = f
    · subst ht
      simp [countOcc]
    · have : ¬ f = t := fun h => ht h.symm
      simp [countOcc, ht, this, ih]

lemma scanFinding_ne_ddosFinding (a : String) (b : Nat) (c : String) (d : Nat) :
    scanFinding a b ≠ ddosFinding c d := by
  intro h
  have htype := congrArg Threat.type h
  simp only [scanFinding, ddosFinding] at htype
  exact absurd htype (by decide)

/-! ### Claim C1: the DDoS threshold -/

/-- A 34-byte IPv4 TCP frame from 1.2.3.4 to 5.6.7.8, used as the concrete
input of the witness theorems. -/
def sampleFrame : RawFrame :=
  ⟨List.replicate 12 0 ++ [8, 0] ++ List.replicate 9 0 ++ [6] ++ [0, 0] ++
    [1, 2, 3, 4] ++ [5, 6, 7, 8], none⟩

/-- C1: for every connection key recorded in the aggregation state of a run,
a "Potential DDoS" finding naming that connection and its exact packet count
appears in the threat list exactly once when the count is strictly greater
than 100 and not at all otherwise; in particular a count of exactly 100
produces no finding and a count of 101 produces exactly one, and membership
of the finding is equivalent to the count exceeding 100. -/
theorem ddos_findings_iff_count_gt_100 (frames : List RawFrame)
    (conn : String) (count : Nat)
    (hmem : (conn, count) ∈ (runPackets frames).connectionCounts) :
    countOcc (ddosFinding conn count) (analyze frames).threats
        = (if 100 < count then 1 else 0)
    ∧ (ddosFinding conn count ∈ (analyze frames).threats ↔ 100 < count) := by
  have hthreats : (analyze frames).threats =
      ddosFindings (runPackets frames).connectionCounts ++
        portScanFindings (portScanSources (runPackets frames).packetDetails) := rfl
  have hsf : ∀ e ∈ (runPackets frames).connectionCounts, SpaceFree e.1 :=
    runPackets_cc_spaceFree frames
  have hconnsf : SpaceFree conn := hsf (conn, count) hmem
  have hnd : (((runPackets frames).connectionCounts).map Prod.fst).Nodup := by
    rw [runPackets_cc]
    exact buildCC_nodup _
  have huniq : ∀ e ∈ (runPackets frames).connectionCounts,
      ddosFinding e.1 e.2 = ddosFinding conn count → e.1 = conn ∧ e.2 = count :=
    fun e he heq => ddosFinding_inj (hsf e he) hconnsf heq
  have hddos : countOcc (ddosFinding conn count)
      (ddosFindings (runPackets frames).connectionCounts) =
      if 100 < count then 1 else 0 :=
    countOcc_emit 100 ddosFinding conn count _ hmem hnd huniq
  have hscan : countOcc (ddosFinding conn count)
      (portScanFindings (portScanSources (runPackets frames).packetDetails)) = 0 :=
    countOcc_emit_zero 20 scanFinding _ _
      (fun e _ => scanFinding_ne_ddosFinding e.1 e.2 conn count)
  have hcount : countOcc (ddosFinding conn count) (analyze frames).threats =
      if 100 < count then 1 else 0 := by
    rw [hthreats, countOcc_append, hddos, hscan]
    omega
  refine ⟨hcount, ?_⟩
  rw [mem_iff_countOcc_pos, hcount]
  by_cases h : 100 < count
  · simp [h]
  · simp [h]

/-- C1 witness: on the single sample frame the connection
`1.2.3.4->5.6.7.8` has count 1, so no DDoS finding is emitted. -/
theorem ddos_findings_iff_count_gt_100_witness :
    countOcc (ddosFinding "1.2.3.4->5.6.7.8" 1) (analyze [sampleFrame]).threats
      = (if 100 < 1 then 1 else 0) :=
  (ddos_findings_iff_count_gt_100 [sampleFrame] "1.2.3.4->5.6.7.8" 1 (by decide)).1

/-! ### Claim C3: the frame count -/

/-- C3: for every capture input, the returned totalPackets equals the number
of frames read, IPv4 or not, and the number of detail records never exceeds
it. -/
theorem totalPackets_eq_frames_length (frames : List RawFrame) :
    (analyze frames).totalPackets = frames.length ∧
    (analyze frames).packetDetails.length ≤ (analyze frames).totalPackets := by
  have h1 : (analyze frames).totalPackets = (runPackets frames).totalPackets := rfl
  have h2 : (analyze frames).packetDetails = (runPackets frames).packetDetails := rfl
  rw [h1, h2, runPackets_total, runPackets_details]
  exact ⟨rfl, List.length_filterMap_le _ _⟩

/-! ### Claim C5: short and non-IPv4 frames degrade gracefully -/

/-- C5: a frame too short to contain the ethertype field, or whose ethertype
is not 0x0800, is still counted, no detail record is appended, no
aggregation entry is created, and the (total) step function raises nothing. -/
theorem short_or_non_ipv4_counted_only (s : AnalysisState) (f : RawFrame)
    (h : f.data.length < 14 ∨ readUInt16BE f.data 12 ≠ some 0x0800) :
    processPacket s f = { s with totalPackets := s.totalPackets + 1 } := by
  have hnone : decodeFrame f = none := by
    rcases h with hshort | hne
    · have h13 : f.data.get? 13 = none := by
        rw [List.get?_eq_none]
        omega
      have hread : readUInt16BE f.data 12 = none := by
        have h13' : f.data.get? (12 + 1) = none := h13
        unfold readUInt16BE
        cases h12 : f.data.get? 12 <;> rw [h13']
      unfold decodeFrame
      rw [hread]
    · cases hr : readUInt16BE f.data 12 with
      | none =>
        unfold decodeFrame
        rw [hr]
      | some e =>
        have he : ¬ e = 0x0800 := fun heq => hne (by rw [hr, heq])
        unfold decodeFrame
        rw [hr]
        simp [he]
  simp [processPacket, hnone]

/-- C5 witness: a three-byte frame is counted and nothing else happens. -/
theorem short_or_non_ipv4_counted_only_witness :
    processPacket ⟨0, [], []⟩ ⟨[1, 2, 3], none⟩ = ⟨0 + 1, [], []⟩ :=
  short_or_non_ipv4_counted_only ⟨0, [], []⟩ ⟨[1, 2, 3], none⟩ (Or.inl (by decide))

/-! ### Claim C6: mid-stream failure discards partial results -/

/-- C6: when the underlying parse fails after the given frames, the run
surfaces a single error and no result object, although the state accumulated
from the prior frames (count, details, aggregation) was valid in memory. -/
theorem midstream_failure_discards_partial (frames : List RawFrame) :
    analyzeRun frames true = Except.error "Failed to parse PCAP file."
    ∧ (runPackets frames).totalPackets = frames.length
    ∧ (runPackets frames).packetDetails = frames.filterMap decodeFrame
    ∧ (runPackets frames).connectionCounts = buildCC (frames.filterMap decodeFrame) :=
  ⟨rfl, runPackets_total frames, runPackets_details frames, runPackets_cc frames⟩

/-! ### Claim C8: decoding is pure, stateless and idempotent -/

/-- C8: the detail record contributed by a frame is `decodeFrame f` whatever
state was reached before it, and decoding the same frame twice after any
prefix appends two identical records — decoding has no hidden state and no
ordering requirement. -/
theorem decode_stateless_idempotent (pre : List RawFrame) (f : RawFrame) :
    (∀ s, (processPacket s f).packetDetails =
        s.packetDetails ++ (decodeFrame f).toList)
    ∧ (runPackets (pre ++ [f, f])).packetDetails =
        (runPackets pre).packetDetails ++
          (decodeFrame f).toList ++ (decodeFrame f).toList := by
  constructor
  · intro s
    cases hdf : decodeFrame f <;> simp [processPacket, hdf]
  · rw [runPackets_details, runPackets_details, List.filterMap_append]
    cases hdf : decodeFrame f <;> simp [hdf]

/-! ### Claim C9: short-but-IPv4 frames produce "undefined" fields -/

/-- A 14-byte frame that carries only zeros and the IPv4 ethertype. -/
def headerOnlyFrame : RawFrame := ⟨List.replicate 12 0 ++ [8, 0], none⟩

/-- C9: a frame whose ethertype field reads 0x0800 but which is shorter than
34 bytes still yields a detail record: the out-of-range byte reads render as
the text "undefined" inside the addresses, the protocol name is derived from
the undefined protocol byte, the frame is counted and no error is raised. -/
theorem short_ipv4_frame_undefined_fields :
    analyze [headerOnlyFrame] =
      { totalPackets := 1
        packetDetails := [{ srcIP := "undefined.undefined.undefined.undefined"
                            dstIP := "undefined.undefined.undefined.undefined"
                            protocol := "Unknown (undefined)"
                            packetSize := 14 }]
        threats := [] } := by
  decide

/-! ### Claim C10: analyses are deterministic and independent -/

/-- C10: every request is served from fresh per-request state, so the result
at the position of a request with body `b` is `analyze b` no matter which
requests surround it; two runs over the same bytes give the same result
(timestamps are outside the model). -/
theorem analysis_deterministic_fresh_state
    (pre1 pre2 post1 post2 : List (List RawFrame)) (b : List RawFrame) :
    (serveAll (pre1 ++ b :: post1)).get? pre1.length = some (analyze b)
    ∧ (serveAll (pre1 ++ b :: post1)).get? pre1.length =
        (serveAll (pre2 ++ b :: post2)).get? pre2.length := by
  have key : ∀ (pre post : List (List RawFrame)),
      (serveAll (pre ++ b :: post)).get? pre.length = some (analyze b) := by
    intro pre post
    induction pre with
    | nil => rfl
    | cons r rs ih => simpa [serveAll] using ih
  exact ⟨key pre1 post1, (key pre1 post1).trans (key pre2 post2).symm⟩

/-! ### Invariants of the per-source destination map -/

lemma addDest_keys (m : List (String × List String)) (s d : String) :
    (addDest m s d).map Prod.fst =
      if s ∈ m.map Prod.fst then m.map Prod.fst else m.map Prod.fst ++ [s] := by
  induction m with
  | nil => simp [addDest]
  | cons e rest ih =>
    obtain ⟨k, ds⟩ := e
    by_cases hk : k = s
    · subst hk
      simp [addDest]
    · have hne : ¬ s = k := fun h => hk h.symm
      by_cases hmem : s ∈ rest.map Prod.fst
      · simp [addDest, hk, ih, hmem, hne]
      · simp [addDest, hk, ih, hmem, hne]

lemma addDest_nodup {m : List (String × List String)} (s d : String)
    (h : (m.map Prod.fst).Nodup) : ((addDest m s d).map Prod.fst).Nodup := by
  rw [addDest_keys]
  by_cases hk : s ∈ m.map Prod.fst
  · rw [if_pos hk]; exact h
  · rw [if_neg hk]
    simp only [List.nodup_append, List.nodup_cons, List.not_mem_nil,
      not_false_iff, List.nodup_nil, and_true, true_and]
    exact ⟨h, fun a ha => by
      simp only [List.mem_singleton]
      exact fun heq => hk (heq ▸ ha)⟩

lemma addDest_mem_cases (m : List (String × List String)) (s d : String)
    (e : String × List String) (hnd : (m.map Prod.fst).Nodup) :
    e ∈ addDest m s d →
      (e.1 ≠ s ∧ e ∈ m)
      ∨ (s ∉ m.map Prod.fst ∧ e = (s, [d]))
      ∨ (∃ ds, (s, ds) ∈ m ∧ e = (s, if d ∈ ds then ds else ds ++ [d])) := by
  induction m with
  | nil =>
    intro he
    simp only [addDest, List.mem_singleton] at he
    exact Or.inr (Or.inl ⟨by simp, he⟩)
  | cons e0 rest ih =>
    intro he
    obtain ⟨k, ds0⟩ := e0
    have hnd' : k ∉ rest.map Prod.fst ∧ (rest.map Prod.fst).Nodup := by
      simpa using hnd
    by_cases hk : k = s
    · subst hk
      simp only [addDest, if_pos rfl] at he
      rcases List.mem_cons.mp he with h1 | h2
      · exact Or.inr (Or.inr ⟨ds0, List.mem_cons_self _ _, h1⟩)
      · have hne : e.1 ≠ k := by
          intro heq
          exact hnd'.1 (heq ▸ List.mem_map_of_mem Prod.fst h2)
        exact Or.inl ⟨hne, List.mem_cons_of_mem _ h2⟩
    · simp only [addDest, if_neg hk] at he
      rcases List.mem_cons.mp he with h1 | h2
      · subst h1
        exact Or.inl ⟨fun h => hk h, List.mem_cons_self _ _⟩
      · rcases ih hnd'.2 h2 with ⟨hne, hmem⟩ | ⟨hnotin, heq⟩ | ⟨ds, hds, heq⟩
        · exact Or.inl ⟨hne, List.mem_cons_of_mem _ hmem⟩
        · refine Or.inr (Or.inl ⟨?_, heq⟩)
          simp only [List.map_cons, List.mem_cons, not_or]
          exact ⟨fun h => hk h.symm, hnotin⟩
        · exact Or.inr (Or.inr ⟨ds, List.mem_cons_of_mem _ hds, heq⟩)

/-- The running invariant of the `forEach` loop at lines 200–205: keys are
distinct, each processed packet's source has an entry, and each entry holds
exactly the distinct destinations seen from its source, in a
duplicate-free list. -/
def PSInv (processed : List DecodedPacket)
    (m : List (String × List String)) : Prop :=
  (m.map Prod.fst).Nodup
  ∧ (∀ p ∈ processed, p.srcIP ∈ m.map Prod.fst)
  ∧ (∀ e ∈ m, e.2.Nodup ∧ e.1 ∈ processed.map DecodedPacket.srcIP ∧
      (∀ x, x ∈ e.2 ↔ ∃ p, p ∈ processed ∧ p.srcIP = e.1 ∧ p.dstIP = x))

lemma psInv_step (processed : List DecodedPacket)
    (m : List (String × List String)) (p : DecodedPacket)
    (h : PSInv processed m) :
    PSInv (processed ++ [p]) (addDest m p.srcIP p.dstIP) := by
  obtain ⟨hnd, hkeys, hent⟩ := h
  refine ⟨addDest_nodup _ _ hnd, ?_, ?_⟩
  · intro q hq
    rw [addDest_keys]
    rcases List.mem_append.mp hq with hq | hq
    · by_cases hs : p.srcIP ∈ m.map Prod.fst
      · rw [if_pos hs]
        exact hkeys q hq
      · rw [if_neg hs]
        exact List.mem_append_left _ (hkeys q hq)
    · have hq' : q = p := by simpa using hq
      subst hq'
      by_cases hs : q.srcIP ∈ m.map Prod.fst
      · rw [if_pos hs]
        exact hs
      · rw [if_neg hs]
        exact List.mem_append_right _ (by simp)
  · intro e he
    rcases addDest_mem_cases m p.srcIP p.dstIP e hnd he with
      ⟨hne, hmem⟩ | ⟨hnotin, heq⟩ | ⟨ds, hds, heq⟩
    · obtain ⟨hnodup, hsrc, hiff⟩ := hent e hmem
      refine ⟨hnodup, ?_, ?_⟩
      · rw [List.map_append]
        exact List.mem_append_left _ hsrc
      · intro x
        rw [hiff x]
        constructor
        · rintro ⟨q, hq, h1, h2⟩
          exact ⟨q, List.mem_append_left _ hq, h1, h2⟩
        · rintro ⟨q, hq, h1, h2⟩
          rcases List.mem_append.mp hq with hq | hq
          · exact ⟨q, hq, h1, h2⟩
          · exfalso
            have hqp : q = p := by simpa using hq
            subst hqp
            exact hne h1.symm
    · subst heq
      refine ⟨by simp, ?_, ?_⟩
      · rw [List.map_append]
        exact List.mem_append_right _ (by simp)
      · intro x
        simp only [List.mem_singleton]
        constructor
        · intro hx
          subst hx
          exact ⟨p, List.mem_append_right _ (by simp), rfl, rfl⟩
        · rintro ⟨q, hq, h1, h2⟩
          rcases List.mem_append.mp hq with hq | hq
          · exact absurd (h1 ▸ hkeys q hq) hnotin
          · have hqp : q = p := by simpa using hq
            subst hqp
            exact h2.symm
    · subst heq
      obtain ⟨hnodup, hsrc, hiff⟩ := hent (p.srcIP, ds) hds
      refine ⟨?_, ?_, ?_⟩
      · by_cases hd : p.dstIP ∈ ds
        · simpa [hd] using hnodup
        · show (if p.dstIP ∈ ds then ds else ds ++ [p.dstIP]).Nodup
          rw [if_neg hd, List.nodup_append]
          refine ⟨hnodup, by simp, fun a ha => ?_⟩
          simp only [List.mem_singleton]
          exact fun heq => hd (heq ▸ ha)
      · rw [List.map_append]
        exact List.mem_append_left _ hsrc
      · intro x
        show x ∈ (if p.dstIP ∈ ds then ds else ds ++ [p.dstIP]) ↔ _
        constructor
        · intro hx
          by_cases hd : p.dstIP ∈ ds
          · rw [if_pos hd] at hx
            obtain ⟨q, hq, h1, h2⟩ := (hiff x).mp hx
            exact ⟨q, List.mem_append_left _ hq, h1, h2⟩
          · rw [if_neg hd] at hx
            rcases List.mem_append.mp hx with hx | hx
            · obtain ⟨q, hq, h1, h2⟩ := (hiff x).mp hx
              exact ⟨q, List.mem_append_left _ hq, h1, h2⟩
            · have hxd : x = p.dstIP := by simpa using hx
              subst hxd
              exact ⟨p, List.mem_append_right _ (by simp), rfl, rfl⟩
        · rintro ⟨q, hq, h1, h2⟩
          rcases List.mem_append.mp hq with hq | hq
          · have hx := (hiff x).mpr ⟨q, hq, h1, h2⟩
            by_cases hd : p.dstIP ∈ ds
            · rwa [if_pos hd]
            · rw [if_neg hd]
              exact List.mem_append_left _ hx
          · have hqp : q = p := by simpa using hq
            subst hqp
            by_cases hd : q.dstIP ∈ ds
            · rw [if_pos hd]
              exact h2 ▸ hd
            · rw [if_neg hd, ← h2]
              exact List.mem_append_right _ (by simp)

lemma psInv_fold (pds : List DecodedPacket) :
    ∀ (processed : List DecodedPacket) (m : List (String × List String)),
      PSInv processed m →
      PSInv (processed ++ pds)
        (List.foldl (fun m p => addDest m p.srcIP p.dstIP) m pds) := by
  induction pds with
  | nil =>
    intro processed m h
    simpa using h
  | cons p rest ih =>
    intro processed m h
    have h2 := ih (processed ++ [p]) _ (psInv_step processed m p h)
    have hassoc : processed ++ [p] ++ rest = processed ++ p :: rest := by simp
    rw [hassoc] at h2
    exact h2

lemma portScanSources_inv (pds : List DecodedPacket) :
    PSInv pds (portScanSources pds) := by
  have h0 : PSInv [] [] := ⟨List.nodup_nil, by simp, by simp⟩
  have h := psInv_fold pds [] [] h0
  simpa [portScanSources] using h

lemma runPackets_details_spaceFree (frames : List RawFrame) :
    ∀ p ∈ (runPackets frames).packetDetails,
      SpaceFree p.srcIP ∧ SpaceFree p.dstIP := by
  rw [runPackets_details]
  intro p hp
  obtain ⟨f, _, hdf⟩ := List.mem_filterMap.mp hp
  exact decodeFrame_spaceFree hdf

/-! ### Claim C2: the port-scan threshold -/

/-- C2: for every source entry of the per-source destination map built from
a run's packet details, the destination list is exactly the set of distinct
destinations seen from that source (duplicate-free), and a "Potential Port
Scan" finding naming that source and that exact distinct count appears
exactly once when the count is strictly greater than 20 and not at all
otherwise; in particular 20 distinct destinations produce no finding and 21
exactly one. -/
theorem scan_findings_iff_distinct_gt_20 (frames : List RawFrame)
    (src : String) (ds : List String)
    (hmem : (src, ds) ∈ portScanSources (runPackets frames).packetDetails) :
    ds.Nodup
    ∧ (∀ x, x ∈ ds ↔ ∃ p, p ∈ (runPackets frames).packetDetails ∧
        p.srcIP = src ∧ p.dstIP = x)
    ∧ countOcc (scanFinding src ds.length) (analyze frames).threats
        = (if 20 < ds.length then 1 else 0)
    ∧ (scanFinding src ds.length ∈ (analyze frames).threats ↔ 20 < ds.length) := by
  obtain ⟨hnd, hkeys, hent⟩ := portScanSources_inv (runPackets frames).packetDetails
  obtain ⟨hdsnd, hsrcmem, hiff⟩ := hent (src, ds) hmem
  have hsf_of_key : ∀ e ∈ portScanSources (runPackets frames).packetDetails,
      SpaceFree e.1 := by
    intro e he
    obtain ⟨_, hsrc, _⟩ := hent e he
    obtain ⟨q, hq, hq1⟩ := List.mem_map.mp hsrc
    rw [← hq1]
    exact (runPackets_details_spaceFree frames q hq).1
  have hsrcsf : SpaceFree src := hsf_of_key (src, ds) hmem
  have hmem' : (src, ds.length) ∈
      (portScanSources (runPackets frames).packetDetails).map
        (fun e => (e.1, e.2.length)) :=
    List.mem_map_of_mem _ hmem
  have hnd' : (((portScanSources (runPackets frames).packetDetails).map
      (fun e => (e.1, e.2.length))).map Prod.fst).Nodup := by
    rw [List.map_map]
    exact hnd
  have huniq : ∀ e ∈ (portScanSources (runPackets frames).packetDetails).map
      (fun e => (e.1, e.2.length)),
      scanFinding e.1 e.2 = scanFinding src ds.length →
        e.1 = src ∧ e.2 = ds.length := by
    intro e he heq
    obtain ⟨e0, he0, he0eq⟩ := List.mem_map.mp he
    have hsfe : SpaceFree e.1 := by
      rw [← he0eq]
      exact hsf_of_key e0 he0
    exact scanFinding_inj hsfe hsrcsf heq
  have hscan : countOcc (scanFinding src ds.length)
      (portScanFindings (portScanSources (runPackets frames).packetDetails))
      = if 20 < ds.length then 1 else 0 :=
    countOcc_emit 20 scanFinding src ds.length _ hmem' hnd' huniq
  have hddos : countOcc (scanFinding src ds.length)
      (ddosFindings (runPackets frames).connectionCounts) = 0 :=
    countOcc_emit_zero 100 ddosFinding _ _
      (fun e _ h => scanFinding_ne_ddosFinding src ds.length e.1 e.2 h.symm)
  have hthreats : (analyze frames).threats =
      ddosFindings (runPackets frames).connectionCounts ++
        portScanFindings (portScanSources (runPackets frames).packetDetails) := rfl
  have hcount : countOcc (scanFinding src ds.length) (analyze frames).threats
      = if 20 < ds.length then 1 else 0 := by
    rw [hthreats, countOcc_append, hddos, hscan]
    omega
  refine ⟨hdsnd, hiff, hcount, ?_⟩
  rw [mem_iff_countOcc_pos, hcount]
  by_cases h : 20 < ds.length
  · simp [h]
  · simp [h]

/-- C2 witness: on the single sample frame the source `1.2.3.4` has one
distinct destination, far below the threshold, so no scan finding exists. -/
theorem scan_findings_iff_distinct_gt_20_witness :
    countOcc (scanFinding "1.2.3.4" (["5.6.7.8"] : List String).length)
        (analyze [sampleFrame]).threats
      = (if 20 < (["5.6.7.8"] : List String).length then 1 else 0) :=
  (scan_findings_iff_distinct_gt_20 [sampleFrame] "1.2.3.4" ["5.6.7.8"]
    (by decide)).2.2.1

/-! ### Claim C7: the aggregation state is updated once per packet,
monotonically -/

lemma addDest_grow (m : List (String × List String)) (s d k : String)
    (ds : List String) (h : (k, ds) ∈ m) :
    ∃ t, (k, ds ++ t) ∈ addDest m s d := by
  induction m with
  | nil => cases h
  | cons e0 rest ih =>
    obtain ⟨k0, ds0⟩ := e0
    by_cases hk : k0 = s
    · subst hk
      rcases List.mem_cons.mp h with h1 | h2
      · injection h1 with hk1 hd1
        subst hk1
        subst hd1
        by_cases hd : d ∈ ds
        · refine ⟨[], ?_⟩
          simp only [addDest, if_pos rfl, List.append_nil, if_pos hd]
          exact List.mem_cons_self _ _
        · refine ⟨[d], ?_⟩
          simp only [addDest, if_pos rfl, if_neg hd]
          exact List.mem_cons_self _ _
      · refine ⟨[], ?_⟩
        rw [List.append_nil]
        simp only [addDest, if_pos rfl]
        exact List.mem_cons_of_mem _ h2
    · rcases List.mem_cons.mp h with h1 | h2
      · refine ⟨[], ?_⟩
        rw [List.append_nil]
        simp only [addDest, if_neg hk]
        exact h1 ▸ List.mem_cons_self _ _
      · obtain ⟨t, ht⟩ := ih h2
        refine ⟨t, ?_⟩
        simp only [addDest, if_neg hk]
        exact List.mem_cons_of_mem _ ht

/-- C7: during a run the aggregation state is touched exactly once per
decoded packet (the counts sum to the number of detail records), every
recorded connection key has count at least one and stems from a detail
record, each step only increases connection counts and never drops a key,
and each step of the destination-set loop only extends a source's list. -/
theorem aggregation_monotone_once_per_packet (frames : List RawFrame) :
    sumCounts (runPackets frames).connectionCounts =
      (runPackets frames).packetDetails.length
    ∧ (∀ e ∈ (runPackets frames).connectionCounts,
        1 ≤ e.2 ∧ ∃ p, p ∈ (runPackets frames).packetDetails ∧
          e.1 = connectionKey p)
    ∧ (∀ cc k, sumCounts (bump cc k) = sumCounts cc + 1)
    ∧ (∀ s f k, lookupCount s.connectionCounts k ≤
        lookupCount (processPacket s f).connectionCounts k)
    ∧ (∀ s f k, k ∈ s.connectionCounts.map Prod.fst →
        k ∈ (processPacket s f).connectionCounts.map Prod.fst)
    ∧ (∀ m s d k ds, (k, ds) ∈ m → ∃ t, (k, ds ++ t) ∈ addDest m s d) := by
  refine ⟨?_, ?_, sumCounts_bump, ?_, ?_, fun m s d k ds h => addDest_grow m s d k ds h⟩
  · rw [runPackets_cc, runPackets_details]
    exact buildCC_sum _
  · intro e he
    rw [runPackets_cc] at he
    obtain ⟨⟨p, hp, hk⟩, hc⟩ := buildCC_entries _ e he
    refine ⟨hc, p, ?_, hk⟩
    rw [runPackets_details]
    exact hp
  · intro s f k
    cases hdf : decodeFrame f
    · simp [processPacket, hdf]
    · simp only [processPacket, hdf]
      exact lookupCount_bump_le _ _ _
  · intro s f k hk
    cases hdf : decodeFrame f
    · simpa [processPacket, hdf] using hk
    · simp only [processPacket, hdf]
      exact bump_mem_keys _ _ _ hk

/-- C7 witness: after the sample run the single recorded connection key has
count 1 and stems from the decoded sample packet. -/
theorem aggregation_monotone_once_per_packet_witness :
    1 ≤ (1 : Nat) ∧ ∃ p, p ∈ (runPackets [sampleFrame]).packetDetails ∧
      "1.2.3.4->5.6.7.8" = connectionKey p :=
  (aggregation_monotone_once_per_packet [sampleFrame]).2.1
    ("1.2.3.4->5.6.7.8", 1) (by decide)

/-! ### Claim C4: the protocol-name mapping -/

/-- A 34-byte IPv4 frame whose protocol byte is 0. -/
def protoZeroFrame : RawFrame :=
  ⟨List.replicate 12 0 ++ [8, 0] ++ List.replicate 9 0 ++ [0] ++ [0, 0] ++
    [1, 2, 3, 4] ++ [5, 6, 7, 8], none⟩

/-- C4 counterexample: the protocol byte 0 produces the string
"Unknown (0)" — with a space before the parenthesis — which differs from the
claimed "Unknown(0)" and from each of TCP, UDP and ICMP. -/
theorem proto_name_space_counterexample :
    (runPackets [protoZeroFrame]).packetDetails.map DecodedPacket.protocol
        = ["Unknown (0)"]
    ∧ ("Unknown(" ++ decStr 0 ++ ")" : String) = "Unknown(0)"
    ∧ (("Unknown (0)" : String) == "Unknown(0)") = false
    ∧ (("Unknown (0)" : String) == "TCP") = false
    ∧ (("Unknown (0)" : String) == "UDP") = false
    ∧ (("Unknown (0)" : String) == "ICMP") = false
    ∧ (runPackets [headerOnlyFrame]).packetDetails.map DecodedPacket.protocol
        = ["Unknown (undefined)"] := by
  decide

/-- C4 (amended): every produced detail record's protocol name is obtained
from the protocol byte by 6 ↦ "TCP", 17 ↦ "UDP", 1 ↦ "ICMP", any other
in-range byte N ↦ "Unknown (N)" — with a space before the parenthesis —
and, when the protocol byte is out of range, "Unknown (undefined)". -/
theorem proto_name_mapping_amended (frames : List RawFrame) (p : DecodedPacket)
    (hp : p ∈ (runPackets frames).packetDetails) :
    (p.protocol = "TCP" ∨ p.protocol = "UDP" ∨ p.protocol = "ICMP"
      ∨ (∃ n : Nat, n ≠ 1 ∧ n ≠ 6 ∧ n ≠ 17 ∧
          p.protocol = "Unknown (" ++ decStr n ++ ")")
      ∨ p.protocol = "Unknown (undefined)")
    ∧ protoName (some 6) = "TCP" ∧ protoName (some 17) = "UDP"
    ∧ protoName (some 1) = "ICMP" := by
  refine ⟨?_, by decide, by decide, by decide⟩
  rw [runPackets_details] at hp
  obtain ⟨f, _, hdf⟩ := List.mem_filterMap.mp hp
  have hproto : p.protocol = protoName (f.data.get? 23) :=
    (decodeFrame_some hdf).2.2.1
  cases hb : f.data.get? 23 with
  | none =>
    right; right; right; right
    rw [hproto, hb]
    decide
  | some n =>
    by_cases h6 : n = 6
    · subst h6
      left
      rw [hproto, hb]
      decide
    · by_cases h17 : n = 17
      · subst h17
        right; left
        rw [hproto, hb]
        decide
      · by_cases h1 : n = 1
        · subst h1
          right; right; left
          rw [hproto, hb]
          decide
        · right; right; right; left
          refine ⟨n, h1, h6, h17, ?_⟩
          have e6 : ¬ ((some n : Option Nat) = some 6) :=
            fun heq => h6 (Option.some.inj heq)
          have e17 : ¬ ((some n : Option Nat) = some 17) :=
            fun heq => h17 (Option.some.inj heq)
          have e1 : ¬ ((some n : Option Nat) = some 1) :=
            fun heq => h1 (Option.some.inj heq)
          rw [hproto, hb]
          unfold protoName
          rw [if_neg e6, if_neg e17, if_neg e1]
          rfl

/-- C4 witness: the amended mapping applied to the decoded sample packet. -/
theorem proto_name_mapping_amended_witness :
    protoName (some 6) = "TCP" ∧ protoName (some 17) = "UDP"
    ∧ protoName (some 1) = "ICMP" :=
  (proto_name_mapping_amended [sampleFrame]
    { srcIP := "1.2.3.4", dstIP := "5.6.7.8", protocol := "TCP", packetSize := 34 }
    (by decide)).2
